import Mathlib

set_option maxHeartbeats 1000000

/-!
Verification of the HR agent (`hr_agent_project/hr_agent.py`) against its
natural-language specification.  The Python source is shallowly embedded:
pure functions become Lean functions on `List Char` / `String`, the JSON
files become explicit parameters, and the system clock is injected as an
explicit `today : Int` (a day number; `availabilityDate` is likewise a
parsed day number, `none` when the stored string is missing or not an ISO
date).  Python `\s` and `\d` are modelled as ASCII whitespace and ASCII
digits, and lower-casing as ASCII lower-casing, which is faithful on the
token repertoire the program recognises.
-/

namespace HRAgent

/-- ASCII whitespace, Python's `\s` repertoire for ASCII text. -/
def isSpc (c : Char) : Bool :=
  c == ' ' || c == '\t' || c == '\n' || c == '\r' || c == '\x0b' || c == '\x0c'

/-- ASCII lower-casing of a string (Python `str.lower` on the ASCII range). -/
def lowerS (s : String) : String :=
  String.mk (s.data.map Char.toLower)

/-- Python `str.strip`: drop whitespace from both ends. -/
def trimC (cs : List Char) : List Char :=
  ((cs.dropWhile isSpc).reverse.dropWhile isSpc).reverse

/-- `text.lower().strip()` as a char list: the preprocessing `parse_query`
applies before extraction. -/
def procText (text : String) : List Char :=
  trimC (text.data.map Char.toLower)

/-- `hasPfx w cs` : the char list `w` is a prefix of `cs`. -/
def hasPfx : List Char → List Char → Bool
  | [], _ => true
  | _ :: _, [] => false
  | a :: as, b :: bs => a == b && hasPfx as bs

/-- Python's substring test `needle in hay`. -/
def subIn (needle : List Char) : List Char → Bool
  | [] => hasPfx needle []
  | c :: cs => hasPfx needle (c :: cs) || subIn needle cs

/-- A candidate record as stored in `candidates.json`.  `availabilityDate`
is the ISO date parsed to an absolute day number; `none` models a missing
or unparsable date (where `datetime.date.fromisoformat` would raise). -/
structure Candidate where
  firstName : String
  lastName : String
  location : String
  skills : List String
  experienceYears : Int
  availabilityDate : Option Int
  stage : String
deriving DecidableEq, Repr

/-- A job record as stored in `jobs.json`. -/
structure Job where
  title : String
  location : String
  skillsRequired : List String
  jdSnippet : String
deriving DecidableEq, Repr

/-- The filter record produced by `parse_query`. -/
structure Filter where
  role : Option String
  skills : List String
  location : Option String
  minExp : Option Int
  maxExp : Option Int
  availabilityWindowDays : Option Nat
deriving DecidableEq, Repr

/-! ### `_score_candidate` (hr_agent.py lines 123-158)

The four additive rules are embedded one component at a time; the final
score and reason list are the sums/concatenations, exactly as the
sequential `score += ...` / `reasons.append(...)` statements produce. -/

/-- `+2` per required skill present in the candidate's skill list; one
combined reason naming all matched skills.  The outer `if required_skills:`
guard of the source is kept. -/
def skillPart (c : Candidate) (requiredSkills : List String) : Nat × List String :=
  if requiredSkills.isEmpty then (0, [])
  else
    let matched := requiredSkills.filter (fun s => c.skills.contains s)
    if matched.isEmpty then (0, [])
    else
      let pts := 2 * matched.length
      (pts, [String.intercalate "+" matched ++ " match (+" ++ toString pts ++ ")"])

/-- `+1` for an exact case-insensitive location match.  `if location and ...`
in Python skips both `None` and the empty string (falsy). -/
def locPart (c : Candidate) (location : Option String) : Nat × List String :=
  match location with
  | none => (0, [])
  | some l =>
    if l != "" && lowerS l == lowerS c.location then (1, [l ++ " (+1)"]) else (0, [])

/-- `+1` when experience lies within `[minExp-1, maxExp+1]`; only fires when
both bounds are present (`is not None` in the source, so `0` bounds count). -/
def expPart (c : Candidate) (minExp maxExp : Option Int) : Nat × List String :=
  match minExp, maxExp with
  | some mn, some mx =>
    let exp := c.experienceYears
    if mn - 1 ≤ exp && exp ≤ mx + 1 then
      (1, [toString exp ++ "y fits (±1) (+1)"])
    else (0, [])
  | _, _ => (0, [])

/-- `+1` when the availability date is within the window.  `if availability_days:`
in Python is a truthiness test, so both `None` and `0` skip the rule; an
unparsable date (`none`) is silently non-matching (the `except: pass`). -/
def availPart (c : Candidate) (availabilityDays : Option Nat) (today : Int) :
    Nat × List String :=
  match availabilityDays with
  | none => (0, [])
  | some w =>
    if w == 0 then (0, [])
    else
      match c.availabilityDate with
      | none => (0, [])
      | some d =>
        let delta := d - today
        if 0 ≤ delta && delta ≤ (w : Int) then
          (1, ["available in " ++ toString delta ++ "d (+1)"])
        else (0, [])

/-- `_score_candidate`: total score and reason trail. -/
def scoreCandidate (c : Candidate) (requiredSkills : List String)
    (location : Option String) (minExp maxExp : Option Int)
    (availabilityDays : Option Nat) (today : Int) : Nat × List String :=
  let p1 := skillPart c requiredSkills
  let p2 := locPart c location
  let p3 := expPart c minExp maxExp
  let p4 := availPart c availabilityDays today
  (p1.1 + p2.1 + p3.1 + p4.1, p1.2 ++ p2.2 ++ p3.2 ++ p4.2)

/-! ### Claim-side score formulas (C1) -/

/-- The score formula exactly as claim C1 words it: 2 points per required
skill present, plus 1 when a location filter is given and matches
case-insensitively, plus 1 when both experience bounds are given and
experience is within `[minExp-1, maxExp+1]`, plus 1 when an availability
window is given and the parsed availability date is 0..window days from
today. -/
def claimScoreC1 (c : Candidate) (requiredSkills : List String)
    (location : Option String) (minExp maxExp : Option Int)
    (availabilityDays : Option Nat) (today : Int) : Nat :=
  2 * (requiredSkills.filter (fun s => c.skills.contains s)).length
  + (match location with
     | none => 0
     | some l => if lowerS l == lowerS c.location then 1 else 0)
  + (match minExp, maxExp with
     | some mn, some mx =>
       if mn - 1 ≤ c.experienceYears && c.experienceYears ≤ mx + 1 then 1 else 0
     | _, _ => 0)
  + (match availabilityDays, c.availabilityDate with
     | some w, some d => if 0 ≤ d - today && d - today ≤ (w : Int) then 1 else 0
     | _, _ => 0)

/-- Claim C1 amended: the location rule additionally requires the location
filter to be a nonempty string, and the availability rule requires the
window to be nonzero (both are Python truthiness tests in the source). -/
def claimScoreC1Amended (c : Candidate) (requiredSkills : List String)
    (location : Option String) (minExp maxExp : Option Int)
    (availabilityDays : Option Nat) (today : Int) : Nat :=
  2 * (requiredSkills.filter (fun s => c.skills.contains s)).length
  + (match location with
     | none => 0
     | some l => if l != "" && lowerS l == lowerS c.location then 1 else 0)
  + (match minExp, maxExp with
     | some mn, some mx =>
       if mn - 1 ≤ c.experienceYears && c.experienceYears ≤ mx + 1 then 1 else 0
     | _, _ => 0)
  + (match availabilityDays, c.availabilityDate with
     | some w, some d =>
       if w != 0 && 0 ≤ d - today && d - today ≤ (w : Int) then 1 else 0
     | _, _ => 0)

/-- Concrete candidate used in counterexamples. -/
def cexCandidate : Candidate :=
  ⟨"A", "B", "", [], 0, some 0, "NEW"⟩

/-- The skill component always equals twice the number of matched skills. -/
theorem skillPart_fst (c : Candidate) (rs : List String) :
    (skillPart c rs).1 = 2 * (rs.filter (fun s => c.skills.contains s)).length := by
  unfold skillPart
  rcases rs with _ | ⟨s, ss⟩
  · rfl
  · simp only [List.isEmpty_cons, Bool.false_eq_true, if_false]
    cases h : ((s :: ss).filter (fun t => c.skills.contains t)).isEmpty
    · simp only [h, Bool.false_eq_true, if_false]
    · simp only [h, if_true]
      rw [List.isEmpty_iff] at h
      rw [h]
      rfl

/-- The location component's score, written as the amended claim words it. -/
theorem locPart_fst (c : Candidate) (location : Option String) :
    (locPart c location).1 =
      (match location with
       | none => 0
       | some l => if l != "" && lowerS l == lowerS c.location then 1 else 0) := by
  rcases location with _ | l
  · rfl
  · cases h : (l != "" && lowerS l == lowerS c.location) <;> simp [locPart, h]

/-- Filtering with a pointwise weaker predicate keeps no more elements. -/
theorem filter_length_mono {A : Type} (p q : A → Bool)
    (h : ∀ a, p a = true → q a = true) (l : List A) :
    (l.filter p).length ≤ (l.filter q).length := by
  induction l with
  | nil => exact Nat.le_refl 0
  | cons a l ih =>
    rw [List.filter_cons, List.filter_cons]
    by_cases hp : p a = true
    · rw [if_pos hp, if_pos (h a hp)]
      exact Nat.succ_le_succ ih
    · rw [if_neg hp]
      by_cases hq : q a = true
      · rw [if_pos hq]
        exact Nat.le_succ_of_le ih
      · rw [if_neg hq]
        exact ih

/-- First projection of a Bool-guarded pair. -/
theorem fstIte (b : Bool) (x y : Nat) (lx ly : List String) :
    (if b then (x, lx) else (y, ly)).1 = if b then x else y := by
  cases b <;> rfl

/-- The experience component's score, written as the claim words it. -/
theorem expPart_fst (c : Candidate) (minExp maxExp : Option Int) :
    (expPart c minExp maxExp).1 =
      (match minExp, maxExp with
       | some mn, some mx =>
         if mn - 1 ≤ c.experienceYears && c.experienceYears ≤ mx + 1 then 1 else 0
       | _, _ => 0) := by
  rcases minExp with _ | mn <;> rcases maxExp with _ | mx
  · rfl
  · rfl
  · rfl
  · exact fstIte _ 1 0 _ _

/-- The availability component's score, written as the amended claim words
it (window present and nonzero, parsed date 0..window days from today). -/
theorem availPart_fst (c : Candidate) (availabilityDays : Option Nat) (today : Int) :
    (availPart c availabilityDays today).1 =
      (match availabilityDays, c.availabilityDate with
       | some w, some d =>
         if w != 0 && 0 ≤ d - today && d - today ≤ (w : Int) then 1 else 0
       | _, _ => 0) := by
  rcases availabilityDays with _ | w
  · rfl
  · rcases hd : c.availabilityDate with _ | d
    · simp [availPart, hd]
    · cases hw : (w == 0)
      · have h1 : (availPart c (some w) today).1 =
            if 0 ≤ d - today && d - today ≤ (w : Int) then 1 else 0 := by
          simp only [availPart, hd, hw, Bool.false_eq_true, if_false]
          exact fstIte _ 1 0 _ _
        rw [h1]
        have h2 : ((w != 0 && 0 ≤ d - today) && d - today ≤ (w : Int))
            = (0 ≤ d - today && d - today ≤ (w : Int)) := by
          simp only [bne, hw, Bool.not_false, Bool.true_and]
        show (if (0 ≤ d - today && d - today ≤ (w : Int)) then 1 else 0)
            = if ((w != 0 && 0 ≤ d - today) && d - today ≤ (w : Int)) then 1 else 0
        rw [h2]
      · have h1 : (availPart c (some w) today).1 = 0 := by
          simp only [availPart, hd, hw, if_true]
        rw [h1]
        show (0 : Nat)
            = if ((w != 0 && 0 ≤ d - today) && d - today ≤ (w : Int)) then 1 else 0
        have h2 : (w != 0) = false := by simp only [bne, hw, Bool.not_true]
        rw [h2]
        rfl

/-- C1, corrected: the total score is the sum of the triggered rule points,
where the location rule requires a nonempty location filter and the
availability rule a nonzero window (Python truthiness in the source). -/
theorem scoreCandidate_eq_claimC1Amended (c : Candidate) (requiredSkills : List String)
    (location : Option String) (minExp maxExp : Option Int)
    (availabilityDays : Option Nat) (today : Int) :
    (scoreCandidate c requiredSkills location minExp maxExp availabilityDays today).1 =
      claimScoreC1Amended c requiredSkills location minExp maxExp availabilityDays today := by
  show (skillPart c requiredSkills).1 + (locPart c location).1
      + (expPart c minExp maxExp).1 + (availPart c availabilityDays today).1 = _
  rw [skillPart_fst, locPart_fst, expPart_fst, availPart_fst]
  rfl

/-- C1 as stated fails: with the empty-string location filter `some ""`, a
zero availability window `some 0`, and a candidate whose location is `""`
and whose availability date is today, the code scores 0 but the claimed
formula scores 2 (the source's truthiness guards skip both rules). -/
theorem scoreCandidate_claimC1_cex :
    (scoreCandidate cexCandidate [] (some "") none none (some 0) 0).1 ≠
      claimScoreC1 cexCandidate [] (some "") none none (some 0) 0 := by
  decide

/-- C5: scoring is monotonic in the candidate's skill set — adding a skill
never decreases the score, for any fixed filter arguments. -/
theorem scoreCandidate_skill_monotone (c : Candidate) (s : String)
    (requiredSkills : List String) (location : Option String)
    (minExp maxExp : Option Int) (availabilityDays : Option Nat) (today : Int) :
    (scoreCandidate c requiredSkills location minExp maxExp availabilityDays today).1 ≤
      (scoreCandidate
        ⟨c.firstName, c.lastName, c.location, s :: c.skills, c.experienceYears,
          c.availabilityDate, c.stage⟩
        requiredSkills location minExp maxExp availabilityDays today).1 := by
  show (skillPart c requiredSkills).1 + (locPart c location).1
      + (expPart c minExp maxExp).1 + (availPart c availabilityDays today).1 ≤ _
  show _ ≤ (skillPart _ requiredSkills).1 + (locPart _ location).1
      + (expPart _ minExp maxExp).1 + (availPart _ availabilityDays today).1
  have hloc : (locPart c location).1 =
      (locPart ⟨c.firstName, c.lastName, c.location, s :: c.skills, c.experienceYears,
        c.availabilityDate, c.stage⟩ location).1 := rfl
  have hexp : (expPart c minExp maxExp).1 =
      (expPart ⟨c.firstName, c.lastName, c.location, s :: c.skills, c.experienceYears,
        c.availabilityDate, c.stage⟩ minExp maxExp).1 := rfl
  have havail : (availPart c availabilityDays today).1 =
      (availPart ⟨c.firstName, c.lastName, c.location, s :: c.skills, c.experienceYears,
        c.availabilityDate, c.stage⟩ availabilityDays today).1 := rfl
  rw [← hloc, ← hexp, ← havail]
  have hskill : (skillPart c requiredSkills).1 ≤
      (skillPart ⟨c.firstName, c.lastName, c.location, s :: c.skills, c.experienceYears,
        c.availabilityDate, c.stage⟩ requiredSkills).1 := by
    rw [skillPart_fst, skillPart_fst]
    refine Nat.mul_le_mul_left 2 (filter_length_mono _ _ ?_ requiredSkills)
    intro a ha
    simp only [List.contains_cons]
    rw [ha]
    simp
  omega

/-! ### `search_candidates` (hr_agent.py lines 161-192)

The candidates and jobs files are passed in explicitly (they are what
`_load_json` returns), and `today` is the injected reference date.
Python's `list.sort(key=..., reverse=True)` is a stable sort: equal keys
keep their original relative order, so ties stay in ascending index
order.  It is embedded as a stable insertion sort on descending score. -/

/-- One entry of a search result set. -/
structure ScoredResult where
  index : Nat
  candidate : Candidate
  score : Nat
  reason : String
deriving DecidableEq, Repr

/-- The result's `reason` field: joined reasons plus the score, or the bare
`"score N"` fallback when the reason list is empty. -/
def mkReason (reasons : List String) (score : Nat) : String :=
  if reasons.isEmpty then "score " ++ toString score
  else String.intercalate ", " reasons ++ " → score " ++ toString score

/-- The `for idx, c in enumerate(candidates, start=1)` loop: score each
candidate and keep those with score > 0, tagged with their 1-based index. -/
def scoreResults (idx : Nat) (cs : List Candidate) (requiredSkills : List String)
    (location : Option String) (minExp maxExp : Option Int)
    (availabilityDays : Option Nat) (today : Int) : List ScoredResult :=
  match cs with
  | [] => []
  | c :: rest =>
    let sr := scoreCandidate c requiredSkills location minExp maxExp availabilityDays today
    let tail := scoreResults (idx + 1) rest requiredSkills location minExp maxExp
      availabilityDays today
    if 0 < sr.1 then ⟨idx, c, sr.1, mkReason sr.2 sr.1⟩ :: tail else tail

/-- Stable insertion on descending score: an element goes in front of the
first element whose score it reaches, hence before later equal scores. -/
def insertDesc (x : ScoredResult) : List ScoredResult → List ScoredResult
  | [] => [x]
  | y :: ys => if y.score ≤ x.score then x :: y :: ys else y :: insertDesc x ys

/-- Stable sort by descending score (`results.sort(key=score, reverse=True)`). -/
def sortDescByScore (l : List ScoredResult) : List ScoredResult :=
  l.foldr insertDesc []

/-- Required-skills derivation: explicit filter skills, else the first job
whose title contains the (truthy) role keyword, else none. -/
def deriveRequiredSkills (filters : Filter) (jobs : List Job) : List String :=
  if filters.skills.isEmpty then
    match filters.role with
    | some role =>
      if role != "" then
        match jobs.find? (fun j => subIn (lowerS role).data (lowerS j.title).data) with
        | some j => j.skillsRequired
        | none => []
      else []
    | none => []
  else filters.skills

/-- `search_candidates`: score all candidates, drop non-positive scores,
sort by descending score (stable), truncate to `topN`. -/
def searchCandidates (candidates : List Candidate) (jobs : List Job)
    (filters : Filter) (today : Int) (topN : Nat) : List ScoredResult :=
  let requiredSkills := deriveRequiredSkills filters jobs
  let results := scoreResults 1 candidates requiredSkills filters.location
    filters.minExp filters.maxExp filters.availabilityWindowDays today
  (sortDescByScore results).take topN

/-- The ordering claim C2 states for result lists: strictly greater score,
or equal score and strictly smaller original index. -/
def resOrder (a b : ScoredResult) : Prop :=
  b.score < a.score ∨ (a.score = b.score ∧ a.index < b.index)

/-- Membership through `insertDesc`. -/
theorem mem_insertDesc (x a : ScoredResult) (l : List ScoredResult) :
    a ∈ insertDesc x l ↔ a = x ∨ a ∈ l := by
  induction l with
  | nil => simp [insertDesc]
  | cons y ys ih =>
    simp only [insertDesc]
    by_cases h : y.score ≤ x.score
    · rw [if_pos h]
      simp only [List.mem_cons]
    · rw [if_neg h]
      simp only [List.mem_cons, ih]
      tauto

/-- Sorting permutes nothing in or out. -/
theorem mem_sortDescByScore (a : ScoredResult) (l : List ScoredResult) :
    a ∈ sortDescByScore l ↔ a ∈ l := by
  induction l with
  | nil => simp [sortDescByScore]
  | cons x xs ih =>
    show a ∈ insertDesc x (sortDescByScore xs) ↔ _
    rw [mem_insertDesc, List.mem_cons, ih]

/-- Every kept result has a positive score (the `if score > 0` guard). -/
theorem scoreResults_score_pos (rs : List String) (loc : Option String)
    (mn mx : Option Int) (w : Option Nat) (t : Int) :
    ∀ (idx : Nat) (cs : List Candidate) (r : ScoredResult),
      r ∈ scoreResults idx cs rs loc mn mx w t → 0 < r.score := by
  intro idx cs
  induction cs generalizing idx with
  | nil => intro r h; simp [scoreResults] at h
  | cons c rest ih =>
    intro r h
    simp only [scoreResults] at h
    by_cases hs : 0 < (scoreCandidate c rs loc mn mx w t).1
    · rw [if_pos hs] at h
      rcases List.mem_cons.mp h with h1 | h2
      · rw [h1]; exact hs
      · exact ih (idx + 1) r h2
    · rw [if_neg hs] at h
      exact ih (idx + 1) r h

/-- Kept results carry indices at least the running index. -/
theorem scoreResults_idx_le (rs : List String) (loc : Option String)
    (mn mx : Option Int) (w : Option Nat) (t : Int) :
    ∀ (idx : Nat) (cs : List Candidate) (r : ScoredResult),
      r ∈ scoreResults idx cs rs loc mn mx w t → idx ≤ r.index := by
  intro idx cs
  induction cs generalizing idx with
  | nil => intro r h; simp [scoreResults] at h
  | cons c rest ih =>
    intro r h
    simp only [scoreResults] at h
    by_cases hs : 0 < (scoreCandidate c rs loc mn mx w t).1
    · rw [if_pos hs] at h
      rcases List.mem_cons.mp h with h1 | h2
      · rw [h1]
      · exact Nat.le_of_succ_le (ih (idx + 1) r h2)
    · rw [if_neg hs] at h
      exact Nat.le_of_succ_le (ih (idx + 1) r h)

/-- The enumeration produces strictly increasing candidate indices. -/
theorem scoreResults_pairwise_idx (rs : List String) (loc : Option String)
    (mn mx : Option Int) (w : Option Nat) (t : Int) :
    ∀ (idx : Nat) (cs : List Candidate),
      (scoreResults idx cs rs loc mn mx w t).Pairwise
        (fun a b => a.index < b.index) := by
  intro idx cs
  induction cs generalizing idx with
  | nil => simp [scoreResults]
  | cons c rest ih =>
    simp only [scoreResults]
    by_cases hs : 0 < (scoreCandidate c rs loc mn mx w t).1
    · rw [if_pos hs, List.pairwise_cons]
      refine ⟨fun b hb => ?_, ih (idx + 1)⟩
      have := scoreResults_idx_le rs loc mn mx w t (idx + 1) rest b hb
      show idx < b.index
      omega
    · rw [if_neg hs]
      exact ih (idx + 1)

/-- Inserting an element with index below everything present preserves the
result ordering. -/
theorem insertDesc_pairwise (x : ScoredResult) (l : List ScoredResult)
    (hl : l.Pairwise resOrder) (hx : ∀ y ∈ l, x.index < y.index) :
    (insertDesc x l).Pairwise resOrder := by
  induction l with
  | nil => simp [insertDesc]
  | cons y ys ih =>
    have hl2 := List.pairwise_cons.mp hl
    simp only [insertDesc]
    by_cases h : y.score ≤ x.score
    · rw [if_pos h, List.pairwise_cons]
      refine ⟨fun z hz => ?_, hl⟩
      rcases List.mem_cons.mp hz with rfl | hz2
      · rcases Nat.lt_or_ge z.score x.score with h1 | h2
        · exact Or.inl h1
        · exact Or.inr ⟨Nat.le_antisymm h2 h, hx z (List.mem_cons_self _ _)⟩
      · have hyz := hl2.1 z hz2
        have hzy : z.score ≤ y.score := by
          rcases hyz with h1 | ⟨h1, _⟩
          · omega
          · omega
        rcases Nat.lt_or_ge z.score x.score with h1 | h2
        · exact Or.inl h1
        · exact Or.inr ⟨Nat.le_antisymm h2 (le_trans hzy h),
            hx z (List.mem_cons_of_mem _ hz2)⟩
    · rw [if_neg h, List.pairwise_cons]
      refine ⟨fun z hz => ?_, ih hl2.2 (fun z hz => hx z (List.mem_cons_of_mem _ hz))⟩
      rcases (mem_insertDesc x z ys).mp hz with rfl | hz2
      · exact Or.inl (Nat.lt_of_not_le h)
      · exact hl2.1 z hz2

/-- Stable sorting a list with strictly increasing indices yields a list
ordered by descending score with ties in ascending index order. -/
theorem sortDescByScore_pairwise (l : List ScoredResult)
    (h : l.Pairwise (fun a b => a.index < b.index)) :
    (sortDescByScore l).Pairwise resOrder := by
  induction l with
  | nil => simp [sortDescByScore]
  | cons x xs ih =>
    have h2 := List.pairwise_cons.mp h
    show (insertDesc x (sortDescByScore xs)).Pairwise resOrder
    exact insertDesc_pairwise x _ (ih h2.2)
      (fun y hy => h2.1 y ((mem_sortDescByScore y xs).mp hy))

/-- With all scores zero nothing is kept. -/
theorem scoreResults_eq_nil (rs : List String) (loc : Option String)
    (mn mx : Option Int) (w : Option Nat) (t : Int) :
    ∀ (idx : Nat) (cs : List Candidate),
      (∀ c ∈ cs, (scoreCandidate c rs loc mn mx w t).1 = 0) →
      scoreResults idx cs rs loc mn mx w t = [] := by
  intro idx cs
  induction cs generalizing idx with
  | nil => intro _; simp [scoreResults]
  | cons c rest ih =>
    intro h
    simp only [scoreResults]
    have hc := h c (List.mem_cons_self c rest)
    rw [if_neg (by omega)]
    exact ih (idx + 1) (fun c' hc' => h c' (List.mem_cons_of_mem _ hc'))

/-- Unfolding equation for `searchCandidates`. -/
theorem searchCandidates_eq (candidates : List Candidate) (jobs : List Job)
    (filters : Filter) (today : Int) (topN : Nat) :
    searchCandidates candidates jobs filters today topN =
      (sortDescByScore (scoreResults 1 candidates (deriveRequiredSkills filters jobs)
        filters.location filters.minExp filters.maxExp
        filters.availabilityWindowDays today)).take topN := rfl

/-- Every result stems from some candidate, with score and reason computed
by the scoring function. -/
theorem mem_scoreResults (rs : List String) (loc : Option String)
    (mn mx : Option Int) (w : Option Nat) (t : Int) :
    ∀ (idx : Nat) (cs : List Candidate) (r : ScoredResult),
      r ∈ scoreResults idx cs rs loc mn mx w t →
      ∃ c, c ∈ cs ∧ r.score = (scoreCandidate c rs loc mn mx w t).1 ∧
        r.reason = mkReason (scoreCandidate c rs loc mn mx w t).2 r.score := by
  intro idx cs
  induction cs generalizing idx with
  | nil => intro r h; simp [scoreResults] at h
  | cons c rest ih =>
    intro r h
    simp only [scoreResults] at h
    by_cases hs : 0 < (scoreCandidate c rs loc mn mx w t).1
    · rw [if_pos hs] at h
      rcases List.mem_cons.mp h with h1 | h2
      · refine ⟨c, List.mem_cons_self c rest, ?_, ?_⟩ <;> rw [h1]
      · obtain ⟨c', hc', h1, h2⟩ := ih (idx + 1) r h2
        exact ⟨c', List.mem_cons_of_mem _ hc', h1, h2⟩
    · rw [if_neg hs] at h
      obtain ⟨c', hc', h1, h2⟩ := ih (idx + 1) r h
      exact ⟨c', List.mem_cons_of_mem _ hc', h1, h2⟩

/-- C2: search results all have positive score, are ordered by descending
score with ties in ascending original index, number at most `topN`, and
are empty when no candidate scores above zero. -/
theorem searchCandidates_c2 (candidates : List Candidate) (jobs : List Job)
    (filters : Filter) (today : Int) (topN : Nat) :
    (∀ r ∈ searchCandidates candidates jobs filters today topN, 0 < r.score) ∧
    (searchCandidates candidates jobs filters today topN).Pairwise resOrder ∧
    (searchCandidates candidates jobs filters today topN).length ≤ topN ∧
    ((∀ c ∈ candidates, (scoreCandidate c (deriveRequiredSkills filters jobs)
        filters.location filters.minExp filters.maxExp
        filters.availabilityWindowDays today).1 = 0) →
      searchCandidates candidates jobs filters today topN = []) := by
  rw [searchCandidates_eq]
  refine ⟨?_, ?_, ?_, ?_⟩
  · intro r hr
    exact scoreResults_score_pos _ _ _ _ _ _ 1 candidates r
      ((mem_sortDescByScore _ _).mp (List.mem_of_mem_take hr))
  · exact List.Pairwise.sublist (List.take_sublist _ _)
      (sortDescByScore_pairwise _ (scoreResults_pairwise_idx _ _ _ _ _ _ 1 candidates))
  · exact List.length_take_le _ _
  · intro hz
    rw [scoreResults_eq_nil _ _ _ _ _ _ 1 candidates hz]
    simp [sortDescByScore]

/-- Concrete fixtures for witnesses. -/
def wCand : Candidate := ⟨"Amina", "K", "casablanca", ["React"], 1, some 5, "NEW"⟩

def wFilter : Filter := ⟨none, ["React"], some "Casablanca", some 0, some 2, some 30⟩

def wResult : ScoredResult :=
  ⟨1, wCand, 5,
    mkReason (scoreCandidate wCand ["React"] (some "Casablanca") (some 0) (some 2)
      (some 30) 0).2 5⟩

def zCand : Candidate := ⟨"B", "C", "x", [], 99, none, "NEW"⟩

def zFilter : Filter := ⟨none, [], none, none, none, none⟩

/-- Witness for C2: a concrete search where a member has positive score,
and a concrete all-zero search that returns the empty list. -/
theorem searchCandidates_c2_witness :
    0 < wResult.score ∧ searchCandidates [zCand] [] zFilter 0 5 = [] :=
  ⟨(searchCandidates_c2 [wCand] [] wFilter 0 5).1 wResult (by decide),
   (searchCandidates_c2 [zCand] [] zFilter 0 5).2.2.2 (by decide)⟩

/-! ### C10: score is zero exactly when the reason trail is empty -/

/-- Each scoring rule contributes a positive score exactly together with
its single reason string. -/
theorem zeroIffNil (b : Bool) (k : Nat) (str : String) (hk : k ≠ 0) :
    ((if b then (k, [str]) else (0, ([] : List String))).1 = 0 ↔
      (if b then (k, [str]) else (0, ([] : List String))).2 = []) := by
  cases b <;> simp [hk]

theorem skillPart_zero_iff (c : Candidate) (rs : List String) :
    (skillPart c rs).1 = 0 ↔ (skillPart c rs).2 = [] := by
  unfold skillPart
  rcases rs with _ | ⟨s, ss⟩
  · simp
  · simp only [List.isEmpty_cons, Bool.false_eq_true, if_false]
    cases h : ((s :: ss).filter (fun t => c.skills.contains t)).isEmpty
    · have hlen : ((s :: ss).filter (fun t => c.skills.contains t)).length ≠ 0 := by
        intro h0
        rw [List.length_eq_zero] at h0
        rw [h0] at h
        simp at h
      simp only [h, Bool.false_eq_true, if_false]
      refine iff_of_false ?_ ?_
      · omega
      · simp
    · simp only [h, if_true]

theorem locPart_zero_iff (c : Candidate) (location : Option String) :
    (locPart c location).1 = 0 ↔ (locPart c location).2 = [] := by
  rcases location with _ | l
  · simp [locPart]
  · exact zeroIffNil _ 1 _ (by omega)

theorem expPart_zero_iff (c : Candidate) (minExp maxExp : Option Int) :
    (expPart c minExp maxExp).1 = 0 ↔ (expPart c minExp maxExp).2 = [] := by
  rcases minExp with _ | mn <;> rcases maxExp with _ | mx
  · simp [expPart]
  · simp [expPart]
  · simp [expPart]
  · exact zeroIffNil _ 1 _ (by omega)

theorem availPart_zero_iff (c : Candidate) (availabilityDays : Option Nat)
    (today : Int) :
    (availPart c availabilityDays today).1 = 0 ↔
      (availPart c availabilityDays today).2 = [] := by
  rcases availabilityDays with _ | w
  · simp [availPart]
  · unfold availPart
    cases hw : (w == 0)
    · simp only [hw, Bool.false_eq_true, if_false]
      rcases hd : c.availabilityDate with _ | d
      · simp
      · exact zeroIffNil _ 1 _ (by omega)
    · simp only [hw, if_true]

/-- The score is zero exactly when the reason list is empty. -/
theorem scoreCandidate_zero_iff (c : Candidate) (rs : List String)
    (loc : Option String) (mn mx : Option Int) (w : Option Nat) (t : Int) :
    (scoreCandidate c rs loc mn mx w t).1 = 0 ↔
      (scoreCandidate c rs loc mn mx w t).2 = [] := by
  show (skillPart c rs).1 + (locPart c loc).1 + (expPart c mn mx).1
      + (availPart c w t).1 = 0 ↔
    (skillPart c rs).2 ++ (locPart c loc).2 ++ (expPart c mn mx).2
      ++ (availPart c w t).2 = []
  rw [List.append_eq_nil, List.append_eq_nil, List.append_eq_nil]
  have h1 := skillPart_zero_iff c rs
  have h2 := locPart_zero_iff c loc
  have h3 := expPart_zero_iff c mn mx
  have h4 := availPart_zero_iff c w t
  constructor
  · intro h
    have e1 : (skillPart c rs).1 = 0 := by omega
    have e2 : (locPart c loc).1 = 0 := by omega
    have e3 : (expPart c mn mx).1 = 0 := by omega
    have e4 : (availPart c w t).1 = 0 := by omega
    exact ⟨⟨⟨h1.mp e1, h2.mp e2⟩, h3.mp e3⟩, h4.mp e4⟩
  · intro h
    have e1 := h1.mpr h.1.1.1
    have e2 := h2.mpr h.1.1.2
    have e3 := h3.mpr h.1.2
    have e4 := h4.mpr h.2
    omega

/-- C10: the score is 0 iff the reason list is empty, and consequently every
returned search result's reason string is built from a non-empty reason
list through the joined branch (never the bare `"score N"` fallback). -/
theorem score_reason_invariant :
    (∀ (c : Candidate) (rs : List String) (loc : Option String)
        (mn mx : Option Int) (w : Option Nat) (t : Int),
      ((scoreCandidate c rs loc mn mx w t).1 = 0 ↔
        (scoreCandidate c rs loc mn mx w t).2 = [])) ∧
    (∀ (candidates : List Candidate) (jobs : List Job) (filters : Filter)
        (t : Int) (topN : Nat) (r : ScoredResult),
      r ∈ searchCandidates candidates jobs filters t topN →
      ∃ reasons, reasons ≠ [] ∧
        r.reason = String.intercalate ", " reasons ++ " → score "
          ++ toString r.score) := by
  constructor
  · exact scoreCandidate_zero_iff
  · intro candidates jobs filters t topN r hr
    rw [searchCandidates_eq] at hr
    have hr3 := (mem_sortDescByScore _ _).mp (List.mem_of_mem_take hr)
    obtain ⟨c, _, hscore, hreason⟩ :=
      mem_scoreResults _ _ _ _ _ _ 1 candidates r hr3
    have hpos : 0 < r.score := scoreResults_score_pos _ _ _ _ _ _ 1 candidates r hr3
    have hne : (scoreCandidate c (deriveRequiredSkills filters jobs) filters.location
        filters.minExp filters.maxExp filters.availabilityWindowDays t).2 ≠ [] := by
      intro h0
      have := (scoreCandidate_zero_iff c _ _ _ _ _ _).mpr h0
      omega
    refine ⟨_, hne, ?_⟩
    rw [hreason]
    unfold mkReason
    cases hemp : (scoreCandidate c (deriveRequiredSkills filters jobs) filters.location
        filters.minExp filters.maxExp filters.availabilityWindowDays t).2.isEmpty
    · simp only [hemp, Bool.false_eq_true, if_false]
    · exact absurd (List.isEmpty_iff.mp hemp) hne

/-- Witness for C10: instantiate both conjuncts at concrete inputs. -/
theorem score_reason_invariant_witness :
    ((scoreCandidate zCand [] none none none none 0).1 = 0 ↔
      (scoreCandidate zCand [] none none none none 0).2 = []) ∧
    (∃ reasons, reasons ≠ [] ∧
      wResult.reason = String.intercalate ", " reasons ++ " → score "
        ++ toString wResult.score) :=
  ⟨score_reason_invariant.1 zCand [] none none none none 0,
   score_reason_invariant.2 [wCand] [] wFilter 0 5 wResult (by decide)⟩

/-! ### Shortlists (hr_agent.py lines 195-223)

`shortlists.json` is a JSON object; it is modelled as an association list
with dict semantics: `slLookup` finds the binding for a key, `dictSet`
replaces an existing binding in place or appends a fresh one. -/

def slLookup : List (String × List Int) → String → Option (List Int)
  | [], _ => none
  | (k, v) :: rest, n => if k == n then some v else slLookup rest n

def dictSet : List (String × List Int) → String → List Int → List (String × List Int)
  | [], k, v => [(k, v)]
  | (k2, v2) :: rest, k, v =>
    if k2 == k then (k, v) :: rest else (k2, v2) :: dictSet rest k v

/-- `save_shortlist`: overwrite the named shortlist wholesale (the write to
disk is the returned value in this state-passing model). -/
def saveShortlist (lists : List (String × List Int)) (name : String)
    (candidateIndices : List Int) : List (String × List Int) :=
  dictSet lists name candidateIndices

/-- Digit value of an ASCII digit character. -/
def digitsToNat (ds : List Char) : Nat :=
  ds.foldl (fun acc c => 10 * acc + (c.toNat - '0'.toNat)) 0

/-- `re.findall(r"#?(\d+)", target)`: every maximal digit run (with an
optional leading `#`), left to right, non-overlapping.  Fuel is the text
length plus one; each step consumes at least one character. -/
def digitRunsGo : Nat → List Char → List Nat
  | 0, _ => []
  | _ + 1, [] => []
  | fuel + 1, c :: cs =>
    if c == '#' then
      let ds := cs.takeWhile Char.isDigit
      if ds.isEmpty then digitRunsGo fuel cs
      else digitsToNat ds :: digitRunsGo fuel (cs.dropWhile Char.isDigit)
    else if c.isDigit then
      digitsToNat ((c :: cs).takeWhile Char.isDigit) ::
        digitRunsGo fuel ((c :: cs).dropWhile Char.isDigit)
    else digitRunsGo fuel cs

def digitRuns (cs : List Char) : List Nat :=
  digitRunsGo (cs.length + 1) cs

/-- `_recipients_from_name_or_indices`: a shortlist name resolves to its
saved indices, anything else is parsed as numbers; indices outside
`1..len(candidates)` are silently dropped, the rest dereference 1-based. -/
def recipientsFromNameOrIndices (candidates : List Candidate)
    (lists : List (String × List Int)) (target : String) : List Candidate :=
  let indices : List Int :=
    match slLookup lists target with
    | some idxs => idxs
    | none => (digitRuns target.data).map (fun n => (n : Int))
  indices.filterMap (fun i =>
    if 1 ≤ i && i ≤ (candidates.length : Int) then
      candidates.get? (i - 1).toNat
    else none)

/-- C6: after `save_shortlist(name, indices)`, resolving recipients by that
name yields exactly the candidates at those 1-based positions of the
current collection, in saved order, silently omitting out-of-range
indices. -/
theorem save_then_resolve (lists : List (String × List Int)) (name : String)
    (indices : List Int) (candidates : List Candidate) :
    recipientsFromNameOrIndices candidates (saveShortlist lists name indices) name =
      indices.filterMap (fun i =>
        if 1 ≤ i && i ≤ (candidates.length : Int) then
          candidates.get? (i - 1).toNat
        else none) := by
  have hl : slLookup (dictSet lists name indices) name = some indices := by
    induction lists with
    | nil => simp [dictSet, slLookup]
    | cons p rest ih =>
      obtain ⟨k2, v2⟩ := p
      cases h : (k2 == name)
      · simp only [dictSet, h, Bool.false_eq_true, if_false, slLookup, ih]
      · simp only [dictSet, h, if_true, slLookup, beq_self_eq_true]
  simp only [recipientsFromNameOrIndices, saveShortlist, hl]

/-! ### `draft_email` (hr_agent.py lines 226-266) -/

structure EmailDraft where
  subject : String
  text : String
deriving DecidableEq, Repr

def draftEmail (jobs : List Job) (recipients : List Candidate)
    (jobTitle : String) (tone : String) : EmailDraft :=
  if recipients.isEmpty then ⟨"", ""⟩
  else
    let job := jobs.find? (fun j => lowerS j.title == lowerS jobTitle)
    let jd := match job with | some j => j.jdSnippet | none => ""
    let skills :=
      match job with
      | some j => String.intercalate ", " j.skillsRequired
      | none => ""
    let sg :=
      match recipients with
      | [r] => (r.firstName ++ ", quick chat about a " ++ jobTitle ++ " opportunity?",
                "Hi " ++ r.firstName ++ ",")
      | _ => ("Quick chat about a " ++ jobTitle ++ " opportunity?", "Hi there,")
    let closing :=
      if tone == "friendly" then "Cheers,
Soukaina — Talent Team"
      else if tone == "formal" then "Kind regards,
Soukaina
Talent Acquisition"
      else if tone == "concise" then "Thanks,
Soukaina"
      else "Cheers,
Soukaina — Talent Team"
    let roleLine := "I'm reaching out about a " ++ jobTitle ++ " role in "
      ++ (match job with | some j => j.location | none => "our team") ++ "."
    let body1 := [sg.2, "", roleLine]
    let body2 := if jd != "" then body1 ++ [jd] else body1
    let body3 :=
      if skills != "" then body2 ++ ["Nice-to-have: " ++ skills ++ "."] else body2
    let body := body3 ++ ["",
      "Would you be open to a quick chat this week? I’d love to learn more about your interests.",
      "", closing]
    ⟨sg.1, String.intercalate "
" body⟩

/-- C7: drafting an email for an empty recipient list returns the record
with both fields the empty string — an explicit policy, not an error. -/
theorem draftEmail_empty (jobs : List Job) (jobTitle tone : String) :
    draftEmail jobs [] jobTitle tone = ⟨"", ""⟩ := rfl

/-! ### `_load_json` (hr_agent.py lines 38-45)

The file system is modelled as a map from path to optional contents, and
the JSON reader as an abstract partial parsing function (the stdlib's
`json.load`, not part of this repository): `none` models a raised
`JSONDecodeError`. -/

def loadJson {J : Type} (parseDoc : String → Option J) (fs : String → Option String)
    (path : String) (default : J) : J :=
  match fs path with
  | none => default
  | some contents =>
    match parseDoc contents with
    | some v => v
    | none => default

/-- C9: a missing file loads as the default, and an unparsable file loads
as the same default, with no error surfaced in either case. -/
theorem loadJson_fallback {J : Type} (parseDoc : String → Option J)
    (fs : String → Option String) (path : String) (default : J) :
    (fs path = none → loadJson parseDoc fs path default = default) ∧
    (∀ s, fs path = some s → parseDoc s = none →
      loadJson parseDoc fs path default = default) := by
  constructor
  · intro h
    simp [loadJson, h]
  · intro s hs hp
    simp [loadJson, hs, hp]

/-- A toy parser and file system for the C9 witness. -/
def wParseDoc : String → Option Nat := fun s => if s == "[]" then some 0 else none

def wFs : String → Option String := fun p => if p == "bad" then some "oops" else none

/-- Witness for C9: a missing path and a corrupt file both yield the
default. -/
theorem loadJson_fallback_witness :
    loadJson wParseDoc wFs "gone" 7 = 7 ∧ loadJson wParseDoc wFs "bad" 7 = 7 :=
  ⟨(loadJson_fallback wParseDoc wFs "gone" 7).1 rfl,
   (loadJson_fallback wParseDoc wFs "bad" 7).2 "oops" rfl rfl⟩

/-! ### `parse_query` (hr_agent.py lines 52-120)

Each regex of the source is embedded as an executable matcher over
`List Char` with `re.search` / `re.findall` scanning semantics (leftmost
position first, alternatives in order).  For these particular patterns the
greedy `\d+` / `\s*` sub-matches never need backtracking: each quantifier
is followed by a required character its own class excludes, so the greedy
reading is the unique one.  Python's Unicode word class is modelled as
ASCII alphanumerics plus underscore plus the accented letters appearing in
the source's location character class. -/

/-- The accented letters of the location pattern `[a-zéèêîïâàç\-]`. -/
def accented : List Char := "éèêîïâàç".data

def isWordC (c : Char) : Bool :=
  c.isAlphanum || c == '_' || accented.contains c

def isLocClassC (c : Char) : Bool :=
  ('a' ≤ c && c ≤ 'z') || accented.contains c || c == '-'

/-- Uppercase one character, including the accented repertoire. -/
def upperFr (c : Char) : Char :=
  if c == 'é' then 'É' else if c == 'è' then 'È' else if c == 'ê' then 'Ê'
  else if c == 'î' then 'Î' else if c == 'ï' then 'Ï' else if c == 'â' then 'Â'
  else if c == 'à' then 'À' else if c == 'ç' then 'Ç' else c.toUpper

def lowerFr (c : Char) : Char :=
  if c == 'É' then 'é' else if c == 'È' then 'è' else if c == 'Ê' then 'ê'
  else if c == 'Î' then 'î' else if c == 'Ï' then 'ï' else if c == 'Â' then 'â'
  else if c == 'À' then 'à' else if c == 'Ç' then 'ç' else c.toLower

def isLetterForTitle (c : Char) : Bool :=
  c.isAlpha || accented.contains c || "ÉÈÊÎÏÂÀÇ".data.contains c

/-- Python `str.title`: uppercase the first letter of each letter run,
lowercase the rest. -/
def pyTitle : Bool → List Char → List Char
  | _, [] => []
  | prevLetter, c :: cs =>
    let c2 :=
      if isLetterForTitle c then (if prevLetter then lowerFr c else upperFr c) else c
    c2 :: pyTitle (isLetterForTitle c) cs

/-! #### Role: `(intern|junior|frontend|backend|full[- ]?stack|react\s*ui|trainee)` -/

/-- The `react\s*ui` alternative at the current position. -/
def reactUiAt (cs : List Char) : Option (List Char) :=
  if hasPfx "react".data cs then
    let rest := cs.drop 5
    let ws := rest.takeWhile isSpc
    if hasPfx "ui".data (rest.dropWhile isSpc) then
      some ("react".data ++ ws ++ "ui".data)
    else none
  else none

/-- All role alternatives, in the source's order, at one position. -/
def roleAt (cs : List Char) : Option (List Char) :=
  if hasPfx "intern".data cs then some "intern".data
  else if hasPfx "junior".data cs then some "junior".data
  else if hasPfx "frontend".data cs then some "frontend".data
  else if hasPfx "backend".data cs then some "backend".data
  else if hasPfx "full-stack".data cs then some "full-stack".data
  else if hasPfx "full stack".data cs then some "full stack".data
  else if hasPfx "fullstack".data cs then some "fullstack".data
  else
    match reactUiAt cs with
    | some m => some m
    | none => if hasPfx "trainee".data cs then some "trainee".data else none

/-- `re.search` for the role pattern: leftmost matching position wins. -/
def roleSearch : List Char → Option (List Char)
  | [] => none
  | c :: cs =>
    match roleAt (c :: cs) with
    | some r => some r
    | none => roleSearch cs

/-! #### Location: `\bin\s+([a-zéèêîïâàç\-]+)`, else the city gazetteer -/

/-- The location pattern minus its leading word boundary, at one position:
literal `in`, one or more whitespace, a nonempty run of class characters
(the captured group). -/
def locAt (cs : List Char) : Option (List Char) :=
  if hasPfx "in".data cs then
    let rest := cs.drop 2
    if (rest.takeWhile isSpc).isEmpty then none
    else
      let cap := (rest.dropWhile isSpc).takeWhile isLocClassC
      if cap.isEmpty then none else some cap
  else none

/-- Scan with the previous character tracked for the `\b` check. -/
def locSearch : Option Char → List Char → Option (List Char)
  | _, [] => none
  | prev, c :: cs =>
    let bdOk := match prev with | none => true | some p => !(isWordC p)
    match (if bdOk then locAt (c :: cs) else none) with
    | some cap => some cap
    | none => locSearch (some c) cs

def knownCities : List String :=
  ["casablanca", "rabat", "marrakesh", "marrakech", "tangier", "fes", "agadir"]

def cityScan : List String → List Char → Option String
  | [], _ => none
  | city :: rest, t => if subIn city.data t then some city else cityScan rest t

/-- The location section of `parse_query` (regex first, gazetteer second,
result title-cased). -/
def parseLocation (t : List Char) : Option String :=
  match locSearch none t with
  | some cap => some (String.mk (pyTitle false cap))
  | none =>
    match cityScan knownCities t with
    | some city => some (String.mk (pyTitle false city.data))
    | none => none

/-! #### Experience: `(\d+)\s*[-–]\s*(\d+)\s*(?:years?|y)` then `(\d+)\s*(?:years?|y)`

`(?:years?|y)` succeeds exactly when `year` or `y` is a prefix of the rest
(nothing follows it in the pattern, so the optional `s` never matters). -/

def unitAt (cs : List Char) : Bool :=
  hasPfx "year".data cs || hasPfx "y".data cs

/-- The range pattern at one position. -/
def rangeAt (cs : List Char) : Option (Nat × Nat) :=
  let d1 := cs.takeWhile Char.isDigit
  if d1.isEmpty then none
  else
    match (cs.dropWhile Char.isDigit).dropWhile isSpc with
    | [] => none
    | c :: r2 =>
      if c == '-' || c == '–' then
        let r3 := r2.dropWhile isSpc
        let d2 := r3.takeWhile Char.isDigit
        if d2.isEmpty then none
        else
          if unitAt ((r3.dropWhile Char.isDigit).dropWhile isSpc) then
            some (digitsToNat d1, digitsToNat d2)
          else none
      else none

def findRange : List Char → Option (Nat × Nat)
  | [] => none
  | c :: cs =>
    match rangeAt (c :: cs) with
    | some r => some r
    | none => findRange cs

/-- The single-value pattern at one position. -/
def singleAt (cs : List Char) : Option Nat :=
  let d1 := cs.takeWhile Char.isDigit
  if d1.isEmpty then none
  else
    if unitAt ((cs.dropWhile Char.isDigit).dropWhile isSpc) then
      some (digitsToNat d1)
    else none

def findSingle : List Char → Option Nat
  | [] => none
  | c :: cs =>
    match singleAt (c :: cs) with
    | some v => some v
    | none => findSingle cs

/-- The experience section: the range pattern wins, else a single value `v`
gives `minExp = max(0, v-1)`, `maxExp = v`. -/
def parseExperience (t : List Char) : Option Int × Option Int :=
  match findRange t with
  | some (a, b) => (some (a : Int), some (b : Int))
  | none =>
    match findSingle t with
    | some v => (some (max 0 ((v : Int) - 1)), some (v : Int))
    | none => (none, none)

/-! #### Skills: `\b(react|javascript|js|…|next\.?js|tailwind)\b`, findall -/

/-- Word boundary after a match: end of text or a non-word character. -/
def bdAfter : List Char → Bool
  | [] => true
  | c :: _ => !(isWordC c)

/-- One literal alternative with its trailing boundary; returns the matched
text and the remaining input. -/
def litTok (lit : String) (cs : List Char) : Option (List Char × List Char) :=
  if hasPfx lit.data cs then
    let rest := cs.drop lit.data.length
    if bdAfter rest then some (lit.data, rest) else none
  else none

/-- `next\.?js` (greedy optional dot first), with its trailing boundary. -/
def nextJsTok (cs : List Char) : Option (List Char × List Char) :=
  match litTok "next.js" cs with
  | some r => some r
  | none => litTok "nextjs" cs

/-- The plain-literal skill alternatives before `next\.?js`, in the
source's order. -/
def skillLits : List String :=
  ["react", "javascript", "js", "typescript", "ts", "html", "css", "git",
   "python", "flask", "sql", "django", "redux", "node"]

/-- First alternative from a literal list that matches at this position. -/
def tryToks : List String → List Char → Option (List Char × List Char)
  | [], _ => none
  | lit :: rest, cs =>
    match litTok lit cs with
    | some r => some r
    | none => tryToks rest cs

/-- All skill alternatives in the source's order at one position. -/
def skillAltAt (cs : List Char) : Option (List Char × List Char) :=
  match tryToks skillLits cs with
  | some r => some r
  | none =>
    match nextJsTok cs with
    | some r => some r
    | none => litTok "tailwind" cs

/-- `re.findall` for the skill pattern: scan left to right, leading word
boundary against the previous character, matches are non-overlapping.
Fuel decreases once per step while at least one character is consumed. -/
def skillsScan : Nat → Option Char → List Char → List (List Char)
  | 0, _, _ => []
  | _ + 1, _, [] => []
  | fuel + 1, prev, c :: cs =>
    let bdOk := match prev with | none => true | some p => !(isWordC p)
    match (if bdOk then skillAltAt (c :: cs) else none) with
    | some (tok, rest) => tok :: skillsScan fuel tok.getLast? rest
    | none => skillsScan fuel (some c) cs

/-- Python `str.capitalize`: first character upper, rest lower. -/
def pyCapitalize : List Char → List Char
  | [] => []
  | c :: cs => upperFr c :: cs.map lowerFr

/-- The normalization step of the skills loop. -/
def normSkill (s : List Char) : String :=
  let s2 := String.mk s
  if s2 == "javascript" then "JS"
  else if s2 == "ts" then "TypeScript"
  else if s2 == "next.js" then "Next.js"
  else if s2 == "nextjs" then "Next.js"
  else
    let r := if s.length > 2 then String.mk (pyCapitalize s)
             else String.mk (s.map upperFr)
    if r == "Js" then "JS" else r

/-- Order-preserving de-duplication (the `if s2 not in skills: append`). -/
def dedupAppend : List String → List String → List String
  | acc, [] => acc
  | acc, s :: rest =>
    if acc.contains s then dedupAppend acc rest else dedupAppend (acc ++ [s]) rest

def parseSkills (t : List Char) : List String :=
  dedupAppend [] ((skillsScan (t.length + 1) none t).map normSkill)

/-! #### Availability -/

/-- `available\s*(?:in)?\s*(\d+)\s*days` at one position.  After the
whitespace run, consuming a present `in` is the unique viable reading: the
alternative leaves the pointer at `i`, which is not a digit. -/
def daysAt (cs : List Char) : Option Nat :=
  if hasPfx "available".data cs then
    let r1 := (cs.drop 9).dropWhile isSpc
    let r2 := if hasPfx "in".data r1 then (r1.drop 2).dropWhile isSpc else r1
    let ds := r2.takeWhile Char.isDigit
    if ds.isEmpty then none
    else
      if hasPfx "days".data ((r2.dropWhile Char.isDigit).dropWhile isSpc) then
        some (digitsToNat ds)
      else none
  else none

def findDays : List Char → Option Nat
  | [] => none
  | c :: cs =>
    match daysAt (c :: cs) with
    | some n => some n
    | none => findDays cs

/-- The availability section: the `this month` test guards the other two
checks; inside the `else`, the `available next month` assignment runs after
(and thus overwrites) the `available in N days` one. -/
def parseAvailability (t : List Char) : Option Nat :=
  if subIn "available this month".data t || subIn "this month".data t then some 30
  else
    let w := findDays t
    if subIn "available next month".data t then some 45 else w

/-- `parse_query`: lower-case and trim, then extract each filter field. -/
def parseQuery (text : String) : Filter :=
  let t := procText text
  { role := (roleSearch t).map String.mk
    skills := parseSkills t
    location := parseLocation t
    minExp := (parseExperience t).1
    maxExp := (parseExperience t).2
    availabilityWindowDays := parseAvailability t }

/-- The all-empty filter. -/
def emptyFilter : Filter := ⟨none, [], none, none, none, none⟩

/-! ### C3: availability precedence -/

/-- The availability value claim C3 asserts: treating the three checks as
independent sequential assignments, the last matching rule in evaluation
order (this-month, days, next-month) would win. -/
def claimAvailLastWins (t : List Char) : Option Nat :=
  if subIn "available next month".data t then some 45
  else
    match findDays t with
    | some n => some n
    | none =>
      if subIn "available this month".data t || subIn "this month".data t then some 30
      else none

/-- Unfolding of the availability section as an if-chain. -/
theorem parseAvailability_eq (t : List Char) :
    parseAvailability t =
      if subIn "available this month".data t || subIn "this month".data t then some 30
      else if subIn "available next month".data t then some 45
      else findDays t := rfl

/-- C3 as stated fails: "this month available next month" contains both a
"this month" phrase and the "available next month" phrase; the
later-evaluated matching rule would give 45, but the code returns 30
because the first check guards the other two behind an `else`. -/
theorem parseQuery_availability_cex :
    (parseQuery "this month available next month").availabilityWindowDays ≠
      claimAvailLastWins (procText "this month available next month") := by
  decide

/-- C3 amended: the first check (`available this month` / `this month`,
value 30) takes precedence over both later rules; when it does not match,
the `available in N days` and `available next month` checks behave as
order-dependent assignments in which the later-evaluated matching rule
(next month, value 45) wins. -/
theorem parseQuery_availability_amended (text : String) :
    ((subIn "available this month".data (procText text)
        || subIn "this month".data (procText text)) = true →
      (parseQuery text).availabilityWindowDays = some 30) ∧
    ((subIn "available this month".data (procText text)
        || subIn "this month".data (procText text)) = false →
      subIn "available next month".data (procText text) = true →
      (parseQuery text).availabilityWindowDays = some 45) ∧
    ((subIn "available this month".data (procText text)
        || subIn "this month".data (procText text)) = false →
      subIn "available next month".data (procText text) = false →
      (parseQuery text).availabilityWindowDays = findDays (procText text)) := by
  have he : (parseQuery text).availabilityWindowDays =
      parseAvailability (procText text) := rfl
  rw [he, parseAvailability_eq]
  refine ⟨?_, ?_, ?_⟩
  · intro h1
    rw [if_pos h1]
  · intro h1 h2
    rw [if_neg (by simp [h1]), if_pos h2]
  · intro h1 h2
    rw [if_neg (by simp [h1]), if_neg (by simp [h2])]

/-- Witness for C3 (amended): all three precedence branches at concrete
inputs. -/
theorem parseQuery_availability_amended_witness :
    (parseQuery "this month available next month").availabilityWindowDays = some 30 ∧
    (parseQuery "available next month").availabilityWindowDays = some 45 ∧
    (parseQuery "available in 10 days").availabilityWindowDays =
      findDays (procText "available in 10 days") :=
  ⟨(parseQuery_availability_amended "this month available next month").1 (by decide),
   (parseQuery_availability_amended "available next month").2.1 (by decide) (by decide),
   (parseQuery_availability_amended "available in 10 days").2.2 (by decide) (by decide)⟩

/-! ### C4: experience extraction -/

/-- C4: the dash range pattern sets both bounds directly and takes
precedence; otherwise a single value `v` sets `minExp = max(0, v-1)` and
`maxExp = v`; in particular "0-2 years" gives (0, 2) and "2 years"
gives (1, 2). -/
theorem parseQuery_experience (text : String) :
    (∀ a b, findRange (procText text) = some (a, b) →
      (parseQuery text).minExp = some (a : Int) ∧
        (parseQuery text).maxExp = some (b : Int)) ∧
    (∀ v, findRange (procText text) = none → findSingle (procText text) = some v →
      (parseQuery text).minExp = some (max 0 ((v : Int) - 1)) ∧
        (parseQuery text).maxExp = some (v : Int)) ∧
    ((parseQuery "0-2 years").minExp = some 0 ∧
      (parseQuery "0-2 years").maxExp = some 2) ∧
    ((parseQuery "2 years").minExp = some 1 ∧
      (parseQuery "2 years").maxExp = some 2) := by
  have e1 : (parseQuery text).minExp = (parseExperience (procText text)).1 := rfl
  have e2 : (parseQuery text).maxExp = (parseExperience (procText text)).2 := rfl
  refine ⟨?_, ?_, ⟨by decide, by decide⟩, ⟨by decide, by decide⟩⟩
  · intro a b h
    rw [e1, e2]
    unfold parseExperience
    rw [h]
    exact ⟨rfl, rfl⟩
  · intro v h1 h2
    rw [e1, e2]
    unfold parseExperience
    rw [h1, h2]
    exact ⟨rfl, rfl⟩

/-- Witness for C4: both pattern branches at concrete inputs. -/
theorem parseQuery_experience_witness :
    ((parseQuery "0-2 years").minExp = some 0 ∧
      (parseQuery "0-2 years").maxExp = some 2) ∧
    ((parseQuery "2 years").minExp = some (max 0 ((2 : Int) - 1)) ∧
      (parseQuery "2 years").maxExp = some 2) :=
  ⟨(parseQuery_experience "0-2 years").1 0 2 (by decide),
   (parseQuery_experience "2 years").2.1 2 (by decide) (by decide)⟩

/-! ### C8: totality and the all-empty case

`parse_query` is a total Lean function by construction.  The hypotheses
below say the (lower-cased, trimmed) input lacks every recognised token:
no role keyword, no `in`, no known city, no skill token, no digit (both
experience patterns and the day-count pattern require one), and no
availability phrase. -/

theorem subIn_cons_false {w : List Char} {c : Char} {cs : List Char}
    (h : subIn w (c :: cs) = false) :
    hasPfx w (c :: cs) = false ∧ subIn w cs = false := by
  simp only [subIn] at h
  exact Bool.or_eq_false_iff.mp h

theorem hasPfx_append_left (u v cs : List Char)
    (h : hasPfx (u ++ v) cs = true) : hasPfx u cs = true := by
  induction u generalizing cs with
  | nil => rfl
  | cons a as ih =>
    cases cs with
    | nil => simp [hasPfx] at h
    | cons b bs =>
      simp only [List.cons_append, hasPfx, Bool.and_eq_true] at h ⊢
      exact ⟨h.1, ih bs h.2⟩

theorem roleAt_none (cs : List Char)
    (h1 : hasPfx "intern".data cs = false) (h2 : hasPfx "junior".data cs = false)
    (h3 : hasPfx "frontend".data cs = false) (h4 : hasPfx "backend".data cs = false)
    (h5 : hasPfx "full".data cs = false) (h6 : hasPfx "react".data cs = false)
    (h7 : hasPfx "trainee".data cs = false) :
    roleAt cs = none := by
  have hfa : hasPfx "full-stack".data cs = false := by
    cases hh : hasPfx "full-stack".data cs
    · rfl
    · have hu : hasPfx ("full".data ++ "-stack".data) cs = true := by
        have e : "full".data ++ "-stack".data = "full-stack".data := by decide
        rw [e]; exact hh
      rw [hasPfx_append_left _ _ _ hu] at h5
      exact absurd h5 (by simp)
  have hfb : hasPfx "full stack".data cs = false := by
    cases hh : hasPfx "full stack".data cs
    · rfl
    · have hu : hasPfx ("full".data ++ " stack".data) cs = true := by
        have e : "full".data ++ " stack".data = "full stack".data := by decide
        rw [e]; exact hh
      rw [hasPfx_append_left _ _ _ hu] at h5
      exact absurd h5 (by simp)
  have hfc : hasPfx "fullstack".data cs = false := by
    cases hh : hasPfx "fullstack".data cs
    · rfl
    · have hu : hasPfx ("full".data ++ "stack".data) cs = true := by
        have e : "full".data ++ "stack".data = "fullstack".data := by decide
        rw [e]; exact hh
      rw [hasPfx_append_left _ _ _ hu] at h5
      exact absurd h5 (by simp)
  have hru : reactUiAt cs = none := by
    simp only [reactUiAt, h6, Bool.false_eq_true, if_false]
  simp only [roleAt, h1, h2, h3, h4, hfa, hfb, hfc, h7, hru,
    Bool.false_eq_true, if_false]

theorem roleSearch_none : ∀ (t : List Char),
    subIn "intern".data t = false → subIn "junior".data t = false →
    subIn "frontend".data t = false → subIn "backend".data t = false →
    subIn "full".data t = false → subIn "react".data t = false →
    subIn "trainee".data t = false →
    roleSearch t = none := by
  intro t
  induction t with
  | nil => intro _ _ _ _ _ _ _; rfl
  | cons c cs ih =>
    intro h1 h2 h3 h4 h5 h6 h7
    obtain ⟨p1, q1⟩ := subIn_cons_false h1
    obtain ⟨p2, q2⟩ := subIn_cons_false h2
    obtain ⟨p3, q3⟩ := subIn_cons_false h3
    obtain ⟨p4, q4⟩ := subIn_cons_false h4
    obtain ⟨p5, q5⟩ := subIn_cons_false h5
    obtain ⟨p6, q6⟩ := subIn_cons_false h6
    obtain ⟨p7, q7⟩ := subIn_cons_false h7
    simp only [roleSearch, roleAt_none _ p1 p2 p3 p4 p5 p6 p7]
    exact ih q1 q2 q3 q4 q5 q6 q7

theorem locAt_none (cs : List Char) (h : hasPfx "in".data cs = false) :
    locAt cs = none := by
  simp only [locAt, h, Bool.false_eq_true, if_false]

theorem locSearch_none : ∀ (t : List Char) (prev : Option Char),
    subIn "in".data t = false → locSearch prev t = none := by
  intro t
  induction t with
  | nil => intro _ _; rfl
  | cons c cs ih =>
    intro prev h
    obtain ⟨p, q⟩ := subIn_cons_false h
    simp only [locSearch, locAt_none _ p, ite_self]
    exact ih (some c) q

theorem cityScan_none (t : List Char)
    (h1 : subIn "casablanca".data t = false) (h2 : subIn "rabat".data t = false)
    (h3 : subIn "marrakesh".data t = false) (h4 : subIn "marrakech".data t = false)
    (h5 : subIn "tangier".data t = false) (h6 : subIn "fes".data t = false)
    (h7 : subIn "agadir".data t = false) :
    cityScan knownCities t = none := by
  simp only [knownCities, cityScan, h1, h2, h3, h4, h5, h6, h7,
    Bool.false_eq_true, if_false]

theorem parseLocation_none (t : List Char)
    (hin : subIn "in".data t = false)
    (h1 : subIn "casablanca".data t = false) (h2 : subIn "rabat".data t = false)
    (h3 : subIn "marrakesh".data t = false) (h4 : subIn "marrakech".data t = false)
    (h5 : subIn "tangier".data t = false) (h6 : subIn "fes".data t = false)
    (h7 : subIn "agadir".data t = false) :
    parseLocation t = none := by
  simp only [parseLocation, locSearch_none t none hin,
    cityScan_none t h1 h2 h3 h4 h5 h6 h7]

theorem takeWhile_digit_nil (l : List Char) (h : ∀ c ∈ l, c.isDigit = false) :
    l.takeWhile Char.isDigit = [] := by
  cases l with
  | nil => rfl
  | cons a l2 => simp [List.takeWhile_cons, h a (List.mem_cons_self a l2)]

theorem rangeAt_none (c : Char) (cs : List Char) (h : c.isDigit = false) :
    rangeAt (c :: cs) = none := by
  simp only [rangeAt, List.takeWhile_cons, h, Bool.false_eq_true, if_false,
    List.isEmpty_nil, if_true]

theorem findRange_none : ∀ (t : List Char),
    (∀ c ∈ t, c.isDigit = false) → findRange t = none := by
  intro t
  induction t with
  | nil => intro _; rfl
  | cons c cs ih =>
    intro h
    simp only [findRange, rangeAt_none c cs (h c (List.mem_cons_self c cs))]
    exact ih (fun x hx => h x (List.mem_cons_of_mem _ hx))

theorem singleAt_none (c : Char) (cs : List Char) (h : c.isDigit = false) :
    singleAt (c :: cs) = none := by
  simp only [singleAt, List.takeWhile_cons, h, Bool.false_eq_true, if_false,
    List.isEmpty_nil, if_true]

theorem findSingle_none : ∀ (t : List Char),
    (∀ c ∈ t, c.isDigit = false) → findSingle t = none := by
  intro t
  induction t with
  | nil => intro _; rfl
  | cons c cs ih =>
    intro h
    simp only [findSingle, singleAt_none c cs (h c (List.mem_cons_self c cs))]
    exact ih (fun x hx => h x (List.mem_cons_of_mem _ hx))

theorem daysAt_none (cs : List Char) (h : ∀ c ∈ cs, c.isDigit = false) :
    daysAt cs = none := by
  cases hp : hasPfx "available".data cs
  · simp only [daysAt, hp, Bool.false_eq_true, if_false]
  · have hr1 : ∀ x ∈ (cs.drop 9).dropWhile isSpc, x.isDigit = false :=
      fun x hx => h x (List.drop_subset 9 cs (List.dropWhile_subset _ hx))
    have hr2 : ∀ x ∈ (if hasPfx "in".data ((cs.drop 9).dropWhile isSpc)
        then ((((cs.drop 9).dropWhile isSpc).drop 2).dropWhile isSpc)
        else ((cs.drop 9).dropWhile isSpc)), x.isDigit = false := by
      intro x hx
      by_cases hin : hasPfx "in".data ((cs.drop 9).dropWhile isSpc) = true
      · rw [if_pos hin] at hx
        exact hr1 x (List.drop_subset 2 _ (List.dropWhile_subset _ hx))
      · rw [if_neg hin] at hx
        exact hr1 x hx
    simp only [daysAt, hp, eq_self_iff_true, if_true,
      takeWhile_digit_nil _ hr2, List.isEmpty_nil]

theorem findDays_none : ∀ (t : List Char),
    (∀ c ∈ t, c.isDigit = false) → findDays t = none := by
  intro t
  induction t with
  | nil => intro _; rfl
  | cons c cs ih =>
    intro h
    simp only [findDays, daysAt_none (c :: cs) h]
    exact ih (fun x hx => h x (List.mem_cons_of_mem _ hx))

theorem parseAvailability_none (t : List Char)
    (h1 : subIn "available this month".data t = false)
    (h2 : subIn "this month".data t = false)
    (h3 : subIn "available next month".data t = false)
    (hd : ∀ c ∈ t, c.isDigit = false) :
    parseAvailability t = none := by
  rw [parseAvailability_eq]
  simp only [h1, h2, h3, Bool.or_self, Bool.false_eq_true, if_false,
    findDays_none t hd]

theorem litTok_none (lit : String) (cs : List Char)
    (h : hasPfx lit.data cs = false) : litTok lit cs = none := by
  simp only [litTok, h, Bool.false_eq_true, if_false]

theorem tryToks_none : ∀ (lits : List String) (cs : List Char),
    (∀ lit ∈ lits, hasPfx lit.data cs = false) → tryToks lits cs = none := by
  intro lits
  induction lits with
  | nil => intro _ _; rfl
  | cons l rest ih =>
    intro cs h
    simp only [tryToks, litTok_none l cs (h l (List.mem_cons_self _ _))]
    exact ih cs (fun lit hl => h lit (List.mem_cons_of_mem _ hl))

theorem skillAltAt_none (cs : List Char)
    (hs : ∀ lit ∈ skillLits, hasPfx lit.data cs = false)
    (hnext : hasPfx "next".data cs = false)
    (htail : hasPfx "tailwind".data cs = false) :
    skillAltAt cs = none := by
  have ha : hasPfx "next.js".data cs = false := by
    cases hh : hasPfx "next.js".data cs
    · rfl
    · have hu : hasPfx ("next".data ++ ".js".data) cs = true := by
        have e : "next".data ++ ".js".data = "next.js".data := by decide
        rw [e]; exact hh
      rw [hasPfx_append_left _ _ _ hu] at hnext
      exact absurd hnext (by simp)
  have hb : hasPfx "nextjs".data cs = false := by
    cases hh : hasPfx "nextjs".data cs
    · rfl
    · have hu : hasPfx ("next".data ++ "js".data) cs = true := by
        have e : "next".data ++ "js".data = "nextjs".data := by decide
        rw [e]; exact hh
      rw [hasPfx_append_left _ _ _ hu] at hnext
      exact absurd hnext (by simp)
  have hnj : nextJsTok cs = none := by
    simp only [nextJsTok, litTok_none _ _ ha, litTok_none _ _ hb]
  simp only [skillAltAt, tryToks_none skillLits cs hs, hnj,
    litTok_none _ _ htail]

theorem skillsScan_nil : ∀ (fuel : Nat) (prev : Option Char) (cs : List Char),
    (∀ lit ∈ skillLits, subIn lit.data cs = false) →
    subIn "next".data cs = false → subIn "tailwind".data cs = false →
    skillsScan fuel prev cs = [] := by
  intro fuel
  induction fuel with
  | zero => intro _ _ _ _ _; rfl
  | succ n ih =>
    intro prev cs hs hn ht
    cases cs with
    | nil => rfl
    | cons c cs2 =>
      have hsH : ∀ lit ∈ skillLits, hasPfx lit.data (c :: cs2) = false :=
        fun lit hl => (subIn_cons_false (hs lit hl)).1
      have hsT : ∀ lit ∈ skillLits, subIn lit.data cs2 = false :=
        fun lit hl => (subIn_cons_false (hs lit hl)).2
      obtain ⟨hnH, hnT⟩ := subIn_cons_false hn
      obtain ⟨htH, htT⟩ := subIn_cons_false ht
      simp only [skillsScan, skillAltAt_none (c :: cs2) hsH hnH htH, ite_self]
      exact ih (some c) cs2 hsT hnT htT

theorem parseSkills_nil (t : List Char)
    (hs : ∀ lit ∈ skillLits, subIn lit.data t = false)
    (hn : subIn "next".data t = false) (ht : subIn "tailwind".data t = false) :
    parseSkills t = [] := by
  simp only [parseSkills, skillsScan_nil (t.length + 1) none t hs hn ht,
    List.map_nil]
  rfl

/-- The recognised tokens: role keywords (with `full` standing for the
three `full[- ]?stack` variants and `react` also covering `react\s*ui`),
the location marker `in`, the city gazetteer, the skill vocabulary, and
the availability phrases; digits are excluded separately. -/
def noTokenStrings : List String :=
  ["intern", "junior", "frontend", "backend", "full", "react", "trainee", "in",
   "casablanca", "rabat", "marrakesh", "marrakech", "tangier", "fes", "agadir",
   "javascript", "js", "typescript", "ts", "html", "css", "git", "python",
   "flask", "sql", "django", "redux", "node", "next", "tailwind",
   "available this month", "this month", "available next month"]

/-- The input (lower-cased and trimmed) contains no recognised token and no
digit. -/
def lacksTokens (t : List Char) : Bool :=
  noTokenStrings.all (fun w => !(subIn w.data t)) && t.all (fun c => !(c.isDigit))

/-- C8: `parse_query` is total by construction, and on any input lacking
every recognised role, location, skill, experience and availability token
it returns the all-empty filter. -/
theorem parseQuery_total_empty (text : String)
    (h : lacksTokens (procText text) = true) :
    parseQuery text = emptyFilter := by
  simp only [lacksTokens, Bool.and_eq_true] at h
  have hparts := h
  have m : ∀ w ∈ noTokenStrings, subIn w.data (procText text) = false := by
    have hall := List.all_eq_true.mp hparts.1
    intro w hw
    have h2 := hall w hw
    simpa using h2
  have hdig : ∀ c ∈ procText text, c.isDigit = false := by
    have hall := List.all_eq_true.mp hparts.2
    intro c hc
    simpa using hall c hc
  have hsub : ∀ lit ∈ skillLits, lit ∈ noTokenStrings := by decide
  have hrole := roleSearch_none (procText text)
    (m "intern" (by decide)) (m "junior" (by decide)) (m "frontend" (by decide))
    (m "backend" (by decide)) (m "full" (by decide)) (m "react" (by decide))
    (m "trainee" (by decide))
  have hloc := parseLocation_none (procText text) (m "in" (by decide))
    (m "casablanca" (by decide)) (m "rabat" (by decide)) (m "marrakesh" (by decide))
    (m "marrakech" (by decide)) (m "tangier" (by decide)) (m "fes" (by decide))
    (m "agadir" (by decide))
  have hsk : parseSkills (procText text) = [] :=
    parseSkills_nil _ (fun lit hl => m lit (hsub lit hl)) (m "next" (by decide))
      (m "tailwind" (by decide))
  have hexp : parseExperience (procText text) = (none, none) := by
    simp only [parseExperience, findRange_none (procText text) hdig,
      findSingle_none (procText text) hdig]
  have hav : parseAvailability (procText text) = none :=
    parseAvailability_none _ (m "available this month" (by decide))
      (m "this month" (by decide)) (m "available next month" (by decide)) hdig
  have hq : parseQuery text =
      ⟨(roleSearch (procText text)).map String.mk, parseSkills (procText text),
        parseLocation (procText text), (parseExperience (procText text)).1,
        (parseExperience (procText text)).2, parseAvailability (procText text)⟩ := rfl
  rw [hq, hrole, hloc, hsk, hexp, hav]
  rfl

/-- Witness for C8: a token-free input parses to the all-empty filter. -/
theorem parseQuery_total_empty_witness :
    parseQuery "hello world" = emptyFilter :=
  parseQuery_total_empty "hello world" (by decide)

end HRAgent
